import Mathlib

/-!
Shallow embedding of the admission-control subsystem of the repository
(src/middleware/rate-limit.middleware.ts): the fixed-window rate limiter
with a process-local in-memory store and a shared (Redis-backed) store
with per-call fallback.

Conventions of the embedding:
- JavaScript numbers that hold timestamps, window lengths and counts are
  natural numbers here (Date.now and the counters are non-negative
  integers in every execution); the reported "remaining" value is an
  integer, because the source computes max - count, which can be
  negative before the Math.max(0, _) clamp.
- The module-level Map inMemoryStore is modelled extensionally as a
  partial function from keys to entries; Map.get, Map.set and Map.delete
  are the usual pointwise operations, and the cleanup loop that deletes
  every expired entry is the pointwise filter sweep.
- The Redis database is a partial function from keys to stored numbers
  (the source stores decimal strings and parses them back; the round
  trip is the identity on the naturals stored here). The two redis
  expire calls in the reset branch only install server-side TTLs; no
  claim depends on server-side TTL deletion, so TTLs are not modelled.
- A request-handling outcome is either admitted, carrying the three
  X-RateLimit response headers that the source sets before awaiting
  next(), or rejected, in which case the source invokes the 429 handler
  and sets no headers.
-/

/-- One entry of the in-memory store: { count, resetTime }. -/
structure Entry where
  count : Nat
  resetTime : Nat
  deriving Repr, DecidableEq

/-- The in-memory store, a finite map from keys to entries, modelled
extensionally. -/
abbrev Store := String → Option Entry

def emptyStore : Store := fun _ => none

/-- Map.set: update or insert the entry for a key. -/
def mapSet (s : Store) (k : String) (r : Entry) : Store :=
  fun k2 => if k2 = k then some r else s k2

/-- The cleanup loop at the top of inMemoryRateLimit: every entry whose
resetTime lies strictly before now is deleted. The source iterates the
Map and deletes entry by entry; the decision is per entry, so on the
extensional map model the loop is this pointwise filter. -/
def sweep (s : Store) (now : Nat) : Store :=
  fun k =>
    match s k with
    | some r => if now > r.resetTime then none else some r
    | none => none

/-- Observable outcome of one limiter invocation: admitted carries the
X-RateLimit-Limit, X-RateLimit-Remaining and X-RateLimit-Reset header
values set before control passes to next(); rejected means the 429
handler was invoked (and no headers were set). -/
inductive Outcome where
  | admitted (limit : Nat) (remaining : Int) (reset : Nat)
  | rejected
  deriving Repr, DecidableEq

def Outcome.isAdmitted : Outcome → Bool
  | .admitted _ _ _ => true
  | .rejected => false

/-- The helper inMemoryRateLimit of the source, as a pure transition:
given the store, the key, the resolved windowMs and max configuration
values and the current clock reading, it returns the new store and the
outcome. Mirrors the source line by line: sweep expired entries, then
fresh-entry branch, expired-entry branch (unreachable after the sweep
but kept), and the increment branch with its count > max rejection. -/
def inMemoryRateLimit (store : Store) (key : String) (windowMs maxReq now : Nat) :
    Store × Outcome :=
  let s1 := sweep store now
  match s1 key with
  | none =>
      (mapSet s1 key ⟨1, now + windowMs⟩,
        Outcome.admitted maxReq ((maxReq : Int) - 1) (now + windowMs))
  | some data =>
      if now > data.resetTime then
        (mapSet s1 key ⟨1, now + windowMs⟩,
          Outcome.admitted maxReq ((maxReq : Int) - 1) (now + windowMs))
      else
        let newCount := data.count + 1
        let s2 := mapSet s1 key ⟨newCount, data.resetTime⟩
        if newCount > maxReq then (s2, Outcome.rejected)
        else
          (s2,
            Outcome.admitted maxReq (max 0 ((maxReq : Int) - (newCount : Int)))
              data.resetTime)

/-- Sequential run of the local path: one call of inMemoryRateLimit per
element of the list of clock readings, threading the store. -/
def runLocal (s : Store) (key : String) (windowMs maxReq : Nat) :
    List Nat → Store × List Outcome
  | [] => (s, [])
  | t :: ts =>
      let p := inMemoryRateLimit s key windowMs maxReq t
      let q := runLocal p.1 key windowMs maxReq ts
      (q.1, p.2 :: q.2)

/-- Default key generator of the source: the x-forwarded-for header when
present and non-empty (the JavaScript truthiness test treats the empty
string like an absent header), else the literal unknown, prefixed with
rate-limit:. -/
def defaultKeyGenerator (hdr : Option String) : String :=
  let ip :=
    match hdr with
    | some s => if s = "" then "unknown" else s
    | none => "unknown"
  "rate-limit:" ++ ip

/-- The local-path middleware body: the key produced by the configured
key generator is passed verbatim to inMemoryRateLimit (source line
const key = keyGenerator(c), with no validation or substitution). The
request is modelled by the value the key generator inspects. -/
def rateLimitLocal (kg : Option String → String) (hdr : Option String)
    (s : Store) (windowMs maxReq now : Nat) : Store × Outcome :=
  inMemoryRateLimit s (kg hdr) windowMs maxReq now

/-- The Redis database: a partial map from keys to the stored natural
numbers (counts under the key itself, reset instants under the
key:reset companion key). -/
abbrev RedisState := String → Option Nat

def emptyRedis : RedisState := fun _ => none

/-- redisClient.set on the modelled database. -/
def redisSet (rs : RedisState) (k : String) (v : Nat) : RedisState :=
  fun k2 => if k2 = k then some v else rs k2

/-- The companion key holding the reset instant of the window: the
source uses the template key:reset. -/
def resetKeyOf (key : String) : String := key ++ ":reset"

/-- What one Redis-path invocation decides at its read point: the try
block first awaits the two reads, computes the branch, the outcome and
the value to write, and only then awaits the write. The plan records
everything determined at the read, so an execution is read followed by
apply, with other calls free to interleave between the two awaits. -/
inductive RedisPlan where
  | resetWindow (newReset : Nat) (staleReset : Nat)
  | admitWrite (newCount : Nat) (resetTime : Nat) (remaining : Int)
  | rejectNoWrite (newCount : Nat)
  deriving Repr, DecidableEq

/-- Read phase of the Redis path (source lines 68-99 up to the write):
read count and stored reset instant, default the reset instant to
now + windowMs when absent, and branch exactly as the source does. -/
def redisRead (rs : RedisState) (key : String) (windowMs maxReq now : Nat) :
    RedisPlan :=
  let count := rs key
  let storedReset := rs (resetKeyOf key)
  let resetTime := storedReset.getD (now + windowMs)
  if now > resetTime then
    RedisPlan.resetWindow (now + windowMs) resetTime
  else
    let newCount := count.getD 0 + 1
    if newCount > maxReq then RedisPlan.rejectNoWrite newCount
    else
      RedisPlan.admitWrite newCount resetTime
        (max 0 ((maxReq : Int) - (newCount : Int)))

/-- Write phase of the Redis path: the reset branch writes count 1 and
the fresh reset instant, the admit branch writes back the incremented
count, and a rejection returns from the handler without writing. -/
def redisApply (rs : RedisState) (key : String) : RedisPlan → RedisState
  | .resetWindow newReset _ => redisSet (redisSet rs key 1) (resetKeyOf key) newReset
  | .admitWrite newCount _ _ => redisSet rs key newCount
  | .rejectNoWrite _ => rs

/-- Headers and decision produced from a plan. In the reset branch the
source leaves the local resetTime variable at its pre-reset value, so
the X-RateLimit-Reset header carries the stale instant there. -/
def planOutcome (maxReq : Nat) : RedisPlan → Outcome
  | .resetWindow _ staleReset =>
      Outcome.admitted maxReq ((maxReq : Int) - 1) staleReset
  | .admitWrite _ resetTime remaining =>
      Outcome.admitted maxReq remaining resetTime
  | .rejectNoWrite _ => Outcome.rejected

/-- One uninterleaved (sequential) Redis-path invocation: read, then
apply the write to the same state. -/
def redisStep (rs : RedisState) (key : String) (windowMs maxReq now : Nat) :
    RedisState × Outcome :=
  let p := redisRead rs key windowMs maxReq now
  (redisApply rs key p, planOutcome maxReq p)

/-- Sequential run of the Redis path. -/
def runRedis (rs : RedisState) (key : String) (windowMs maxReq : Nat) :
    List Nat → RedisState × List Outcome
  | [] => (rs, [])
  | t :: ts =>
      let p := redisStep rs key windowMs maxReq t
      let q := runRedis p.1 key windowMs maxReq ts
      (q.1, p.2 :: q.2)

/-- Two concurrent Redis-path invocations for the same key under the
schedule read-1, read-2, write-1, write-2: both calls pass their await
on the two reads before either write lands. This is a real schedule of
the host event loop, since each call suspends between its reads and its
write. -/
def twoInterleaved (rs : RedisState) (key : String) (windowMs maxReq : Nat)
    (t1 t2 : Nat) : RedisState × Outcome × Outcome :=
  let p1 := redisRead rs key windowMs maxReq t1
  let p2 := redisRead rs key windowMs maxReq t2
  let rs1 := redisApply rs key p1
  let rs2 := redisApply rs1 key p2
  (rs2, planOutcome maxReq p1, planOutcome maxReq p2)

/-- Availability of the shared backend for one invocation: noClient
(no Redis client configured, or the client is not ready) and failing
(the client is ready but the call into it throws) both land in the
in-memory path; working runs the try block to completion. -/
inductive RedisAvail where
  | noClient
  | failing
  | working
  deriving Repr, DecidableEq

/-- Combined mutable state visible to the middleware: the shared
database and the process-local map. -/
structure SysState where
  redis : RedisState
  mem : Store

/-- The middleware body for one request: if the client is ready and the
Redis calls succeed, the decision comes from the Redis path; if the
calls throw, the catch block falls back to inMemoryRateLimit for this
call only; with no ready client the in-memory path is used directly.
The availability is a per-call input because the source re-evaluates
redisClient.isReady and re-enters the try block on every request. -/
def rateLimitCall (avail : RedisAvail) (st : SysState) (key : String)
    (windowMs maxReq now : Nat) : SysState × Outcome :=
  match avail with
  | .working =>
      let p := redisStep st.redis key windowMs maxReq now
      (⟨p.1, st.mem⟩, p.2)
  | .failing =>
      let p := inMemoryRateLimit st.mem key windowMs maxReq now
      (⟨st.redis, p.1⟩, p.2)
  | .noClient =>
      let p := inMemoryRateLimit st.mem key windowMs maxReq now
      (⟨st.redis, p.1⟩, p.2)

/-- Run of the middleware over a list of requests, each carrying the
availability of the shared backend for that call and its clock
reading. -/
def runCalls (st : SysState) (key : String) (windowMs maxReq : Nat) :
    List (RedisAvail × Nat) → SysState × List Outcome
  | [] => (st, [])
  | c :: cs =>
      let p := rateLimitCall c.1 st key windowMs maxReq c.2
      let q := runCalls p.1 key windowMs maxReq cs
      (q.1, p.2 :: q.2)

/-- Outcome of a single local-path request as a function of its
post-increment count, used to state the run-level theorems: a count of
at most max is admitted with the clamped remaining, a count beyond max
is rejected. -/
def stepOutcome (maxReq resetAt n : Nat) : Outcome :=
  if n ≤ maxReq then
    Outcome.admitted maxReq (max 0 ((maxReq : Int) - (n : Int))) resetAt
  else Outcome.rejected

/-- Stored Redis count after j sequential requests for one key starting
from an absent key: nothing is ever stored while every request is
rejected (maxReq = 0), otherwise the count climbs to maxReq and stays
there because rejected requests do not write back. -/
def redisCountAfter (maxReq j : Nat) : Option Nat :=
  if j = 0 ∨ maxReq = 0 then none else some (min j maxReq)

-- quick sanity checks of the embedding on the concrete scenario of the
-- spec (windowMs 60000, max 2, key k1, requests at 0, 10, 20, 61000)
example :
    (runLocal emptyStore "k1" 60000 2 [0, 10, 20]).2 =
      [Outcome.admitted 2 1 60000, Outcome.admitted 2 0 60000, Outcome.rejected] := by
  decide

example :
    (runLocal emptyStore "k1" 60000 2 [0, 10, 20, 61000]).2 =
      [Outcome.admitted 2 1 60000, Outcome.admitted 2 0 60000, Outcome.rejected,
        Outcome.admitted 2 1 121000] := by
  decide

-- the Redis path on the same scenario: the reset key is never written,
-- so the fourth request (after the reported reset instant) still sees
-- the old counter and is rejected rather than starting a fresh window
example :
    (runRedis emptyRedis "k1" 60000 2 [0, 10, 20, 61000]).2 =
      [Outcome.admitted 2 1 60000, Outcome.admitted 2 0 60010, Outcome.rejected,
        Outcome.rejected] := by
  decide

example :
    (twoInterleaved emptyRedis "k" 60000 1 0 0).2 =
      (Outcome.admitted 1 0 60000, Outcome.admitted 1 0 60000) := by
  decide

/-! Basic lemmas about the store operations. -/

theorem mapSet_self (s : Store) (k : String) (r : Entry) : mapSet s k r k = some r := by
  simp [mapSet]

theorem mapSet_other (s : Store) (k k2 : String) (r : Entry) (h : k2 ≠ k) :
    mapSet s k r k2 = s k2 := by
  simp [mapSet, h]

theorem redisSet_self (rs : RedisState) (k : String) (v : Nat) :
    redisSet rs k v k = some v := by
  simp [redisSet]

theorem redisSet_other (rs : RedisState) (k k2 : String) (v : Nat) (h : k2 ≠ k) :
    redisSet rs k v k2 = rs k2 := by
  simp [redisSet, h]

theorem resetKeyOf_ne (key : String) : resetKeyOf key ≠ key := by
  intro h
  have h2 := congrArg String.length h
  have h3 : String.length ":reset" = 6 := rfl
  rw [resetKeyOf, String.length_append, h3] at h2
  omega

theorem sweep_eq_some (s : Store) (now : Nat) (k : String) (r : Entry)
    (hs : s k = some r) (h : now ≤ r.resetTime) : sweep s now k = some r := by
  simp [sweep, hs]
  omega

theorem sweep_expired (s : Store) (now : Nat) (k : String)
    (h : ∀ r, s k = some r → r.resetTime < now) : sweep s now k = none := by
  unfold sweep
  cases hc : s k with
  | none => rfl
  | some r => simp [gt_iff_lt, h r hc]

theorem sweep_le (s : Store) (now : Nat) (k : String) (r : Entry)
    (h : sweep s now k = some r) : now ≤ r.resetTime := by
  cases hc : s k with
  | none => simp [sweep, hc] at h
  | some r2 =>
      simp only [sweep, hc] at h
      by_cases h2 : now > r2.resetTime
      · rw [if_pos h2] at h
        exact absurd h (by simp)
      · rw [if_neg h2] at h
        injection h with h3
        subst h3
        omega

/-! Branch lemmas for one invocation of the local path. -/

theorem inMemory_absent (s : Store) (key : String) (w m now : Nat)
    (h : sweep s now key = none) :
    inMemoryRateLimit s key w m now =
      (mapSet (sweep s now) key ⟨1, now + w⟩,
        Outcome.admitted m ((m : Int) - 1) (now + w)) := by
  unfold inMemoryRateLimit
  simp [h]

theorem inMemory_live (s : Store) (key : String) (w m now : Nat) (d : Entry)
    (h : sweep s now key = some d) (h2 : now ≤ d.resetTime) :
    inMemoryRateLimit s key w m now =
      (mapSet (sweep s now) key ⟨d.count + 1, d.resetTime⟩,
        stepOutcome m d.resetTime (d.count + 1)) := by
  unfold inMemoryRateLimit stepOutcome
  simp only [h]
  have h3 : ¬ now > d.resetTime := by omega
  rw [if_neg h3]
  rcases le_or_lt (d.count + 1) m with hc | hc
  · rw [if_neg (by omega : ¬ d.count + 1 > m), if_pos hc]
  · rw [if_pos (by omega : d.count + 1 > m), if_neg (by omega : ¬ d.count + 1 ≤ m)]

theorem isAdmitted_stepOutcome (m R n : Nat) :
    (stepOutcome m R n).isAdmitted = decide (n ≤ m) := by
  unfold stepOutcome
  by_cases h : n ≤ m <;> simp [h, Outcome.isAdmitted]

theorem runLocal_cons_snd (s : Store) (key : String) (w m t : Nat) (ts : List Nat) :
    (runLocal s key w m (t :: ts)).2 =
      (inMemoryRateLimit s key w m t).2 ::
        (runLocal (inMemoryRateLimit s key w m t).1 key w m ts).2 := rfl

theorem runLocal_cons_fst (s : Store) (key : String) (w m t : Nat) (ts : List Nat) :
    (runLocal s key w m (t :: ts)).1 =
      (runLocal (inMemoryRateLimit s key w m t).1 key w m ts).1 := rfl

/-! Run-level invariant for the local path: as long as the key holds a
live entry with reset instant R and every request arrives at or before
R, each request increments the count and the outcome is determined by
the post-increment count. -/

theorem runLocal_live (key : String) (w m R : Nat) :
    ∀ (ts : List Nat) (s : Store) (c : Nat),
      s key = some ⟨c, R⟩ → (∀ t ∈ ts, t ≤ R) →
      (runLocal s key w m ts).2 =
          (List.range ts.length).map (fun j => stepOutcome m R (c + j + 1)) ∧
        (runLocal s key w m ts).1 key = some ⟨c + ts.length, R⟩ := by
  intro ts
  induction ts with
  | nil =>
      intro s c hs _
      simp [runLocal, hs]
  | cons t ts ih =>
      intro s c hs hts
      have ht : t ≤ R := hts t (List.mem_cons_self t ts)
      have hsw : sweep s t key = some ⟨c, R⟩ := sweep_eq_some s t key ⟨c, R⟩ hs ht
      have hstep := inMemory_live s key w m t ⟨c, R⟩ hsw ht
      have hs2 : (inMemoryRateLimit s key w m t).1 key = some ⟨c + 1, R⟩ := by
        rw [hstep]; exact mapSet_self _ _ _
      have ih2 := ih (inMemoryRateLimit s key w m t).1 (c + 1) hs2
        (fun t2 h2 => hts t2 (List.mem_cons_of_mem _ h2))
      have hh : (inMemoryRateLimit s key w m t).2 = stepOutcome m R (c + 1) := by
        rw [hstep]
      constructor
      · rw [runLocal_cons_snd, hh, ih2.1]
        simp only [List.length_cons, List.range_succ_eq_map, List.map_cons,
          List.map_map]
        have hfun : (fun j => stepOutcome m R (c + 1 + j + 1)) =
            ((fun j => stepOutcome m R (c + j + 1)) ∘ Nat.succ) := by
          funext j
          simp only [Function.comp_apply]
          congr 1
          omega
        rw [hfun]
      · rw [runLocal_cons_fst, ih2.2]
        congr 2
        simp only [List.length_cons]
        omega

/-- Starting a fresh window for a key whose previous entry (if any) has
expired: the first request is admitted with remaining max - 1 and a new
entry with count 1 and reset instant t1 + w, and each later request in
the window behaves according to its post-increment count. -/
theorem runLocal_fresh (s : Store) (key : String) (w m t1 : Nat) (ts : List Nat)
    (hfresh : ∀ r, s key = some r → r.resetTime < t1)
    (hts : ∀ t ∈ ts, t ≤ t1 + w) :
    (runLocal s key w m (t1 :: ts)).2 =
        Outcome.admitted m ((m : Int) - 1) (t1 + w) ::
          (List.range ts.length).map (fun j => stepOutcome m (t1 + w) (j + 2)) ∧
      (runLocal s key w m (t1 :: ts)).1 key = some ⟨ts.length + 1, t1 + w⟩ := by
  have hsw : sweep s t1 key = none := sweep_expired s t1 key hfresh
  have hstep := inMemory_absent s key w m t1 hsw
  have hs2 : (inMemoryRateLimit s key w m t1).1 key = some ⟨1, t1 + w⟩ := by
    rw [hstep]; exact mapSet_self _ _ _
  have hrun := runLocal_live key w m (t1 + w) ts (inMemoryRateLimit s key w m t1).1 1
    hs2 hts
  have hh : (inMemoryRateLimit s key w m t1).2 =
      Outcome.admitted m ((m : Int) - 1) (t1 + w) := by
    rw [hstep]
  constructor
  · rw [runLocal_cons_snd, hh, hrun.1]
    have hfun : (fun j => stepOutcome m (t1 + w) (1 + j + 1)) =
        (fun j => stepOutcome m (t1 + w) (j + 2)) := by
      funext j
      congr 1
      omega
    rw [hfun]
  · rw [runLocal_cons_fst, hrun.2]
    congr 2
    omega

/-! Run-level invariant for the Redis path started on an absent key. -/

theorem redisCountAfter_getD (m j : Nat) : (redisCountAfter m j).getD 0 = min j m := by
  unfold redisCountAfter
  by_cases h : j = 0 ∨ m = 0
  · rw [if_pos h]
    rcases h with h | h <;> simp [h]
  · rw [if_neg h]
    simp

theorem redisCountAfter_stall (m j : Nat) (h : m < min j m + 1) :
    redisCountAfter m j = redisCountAfter m (j + 1) := by
  unfold redisCountAfter
  by_cases hm : m = 0
  · simp [hm]
  · have hj : m ≤ j := by omega
    have h1 : ¬ (j = 0 ∨ m = 0) := by omega
    have h2 : ¬ (j + 1 = 0 ∨ m = 0) := by omega
    rw [if_neg h1, if_neg h2]
    congr 1
    omega

theorem redisCountAfter_step (m j : Nat) (h : min j m + 1 ≤ m) :
    redisCountAfter m (j + 1) = some (min j m + 1) := by
  unfold redisCountAfter
  have hj : j < m := by omega
  have h2 : ¬ (j + 1 = 0 ∨ m = 0) := by omega
  rw [if_neg h2]
  congr 1
  omega

theorem redisRead_noReset (rs : RedisState) (key : String) (w m now : Nat)
    (h : rs (resetKeyOf key) = none) :
    redisRead rs key w m now =
      (if (rs key).getD 0 + 1 > m then RedisPlan.rejectNoWrite ((rs key).getD 0 + 1)
       else
         RedisPlan.admitWrite ((rs key).getD 0 + 1) (now + w)
           (max 0 ((m : Int) - (((rs key).getD 0 + 1 : Nat) : Int)))) := by
  unfold redisRead
  rw [h]
  simp only [Option.getD_none]
  rw [if_neg (by omega : ¬ now > now + w)]

theorem runRedis_cons_snd (rs : RedisState) (key : String) (w m t : Nat)
    (ts : List Nat) :
    (runRedis rs key w m (t :: ts)).2 =
      (redisStep rs key w m t).2 ::
        (runRedis (redisStep rs key w m t).1 key w m ts).2 := rfl

theorem runRedis_cons_fst (rs : RedisState) (key : String) (w m t : Nat)
    (ts : List Nat) :
    (runRedis rs key w m (t :: ts)).1 =
      (runRedis (redisStep rs key w m t).1 key w m ts).1 := rfl

theorem runRedis_inv (key : String) (w m : Nat) :
    ∀ (ts : List Nat) (rs : RedisState) (j : Nat),
      rs key = redisCountAfter m j → rs (resetKeyOf key) = none →
      ((runRedis rs key w m ts).2).map Outcome.isAdmitted =
          (List.range ts.length).map (fun k => decide (j + k + 1 ≤ m)) ∧
        (runRedis rs key w m ts).1 key = redisCountAfter m (j + ts.length) ∧
        (runRedis rs key w m ts).1 (resetKeyOf key) = none := by
  intro ts
  induction ts with
  | nil =>
      intro rs j hk hr
      simp [runRedis, hk, hr]
  | cons t ts ih =>
      intro rs j hk hr
      have hread := redisRead_noReset rs key w m t hr
      have hcnt : (rs key).getD 0 = min j m := by rw [hk, redisCountAfter_getD]
      by_cases hc : (rs key).getD 0 + 1 > m
      · -- rejection: no write, state unchanged
        have hplan : redisRead rs key w m t =
            RedisPlan.rejectNoWrite ((rs key).getD 0 + 1) := by
          rw [hread, if_pos hc]
        have hst : (redisStep rs key w m t).1 = rs := by
          unfold redisStep
          rw [hplan]
          rfl
        have hout : (redisStep rs key w m t).2 = Outcome.rejected := by
          unfold redisStep
          rw [hplan]
          rfl
        have hk2 : rs key = redisCountAfter m (j + 1) := by
          rw [hk]
          exact redisCountAfter_stall m j (by omega)
        have ih2 := ih rs (j + 1) hk2 hr
        refine ⟨?_, ?_, ?_⟩
        · rw [runRedis_cons_snd, hst, List.map_cons, hout, ih2.1]
          simp only [List.length_cons, List.range_succ_eq_map, List.map_cons,
            List.map_map]
          have h1 : Outcome.isAdmitted Outcome.rejected = decide (j + 0 + 1 ≤ m) := by
            have : ¬ (j + 0 + 1 ≤ m) := by omega
            simp [Outcome.isAdmitted, this]
          rw [h1]
          have hfun : (fun k => decide (j + 1 + k + 1 ≤ m)) =
              ((fun k => decide (j + k + 1 ≤ m)) ∘ Nat.succ) := by
            funext k
            simp only [Function.comp_apply]
            rw [decide_eq_decide]
            omega
          rw [hfun]
        · rw [runRedis_cons_fst, hst]
          have h2 := ih2.2.1
          rw [h2]
          congr 1
          simp only [List.length_cons]
          omega
        · rw [runRedis_cons_fst, hst]
          exact ih2.2.2
      · -- admission: the incremented count is written back
        have hplan : redisRead rs key w m t =
            RedisPlan.admitWrite ((rs key).getD 0 + 1) (t + w)
              (max 0 ((m : Int) - (((rs key).getD 0 + 1 : Nat) : Int))) := by
          rw [hread, if_neg hc]
        have hst : (redisStep rs key w m t).1 =
            redisSet rs key ((rs key).getD 0 + 1) := by
          unfold redisStep
          rw [hplan]
          rfl
        have hout : (redisStep rs key w m t).2 =
            Outcome.admitted m (max 0 ((m : Int) - (((rs key).getD 0 + 1 : Nat) : Int)))
              (t + w) := by
          unfold redisStep
          rw [hplan]
          rfl
        have hk2 : (redisStep rs key w m t).1 key = redisCountAfter m (j + 1) := by
          rw [hst, redisSet_self, hcnt]
          exact (redisCountAfter_step m j (by omega)).symm
        have hr2 : (redisStep rs key w m t).1 (resetKeyOf key) = none := by
          rw [hst, redisSet_other _ _ _ _ (resetKeyOf_ne key)]
          exact hr
        have ih2 := ih (redisStep rs key w m t).1 (j + 1) hk2 hr2
        refine ⟨?_, ?_, ?_⟩
        · rw [runRedis_cons_snd, List.map_cons, hout, ih2.1]
          simp only [List.length_cons, List.range_succ_eq_map, List.map_cons,
            List.map_map]
          have h1 : Outcome.isAdmitted (Outcome.admitted m
              (max 0 ((m : Int) - (((rs key).getD 0 + 1 : Nat) : Int))) (t + w)) =
              decide (j + 0 + 1 ≤ m) := by
            have : j + 0 + 1 ≤ m := by omega
            simp [Outcome.isAdmitted, this]
          rw [h1]
          have hfun : (fun k => decide (j + 1 + k + 1 ≤ m)) =
              ((fun k => decide (j + k + 1 ≤ m)) ∘ Nat.succ) := by
            funext k
            simp only [Function.comp_apply]
            rw [decide_eq_decide]
            omega
          rw [hfun]
        · rw [runRedis_cons_fst]
          have h2 := ih2.2.1
          rw [h2]
          congr 1
          simp only [List.length_cons]
          omega
        · rw [runRedis_cons_fst]
          exact ih2.2.2

/-! Further single-step lemmas. -/

theorem mapSet_after_sweep_le (s : Store) (now : Nat) (key k : String) (e r : Entry)
    (hk : mapSet (sweep s now) key e k = some r) (he : now ≤ e.resetTime) :
    now ≤ r.resetTime := by
  unfold mapSet at hk
  by_cases h : k = key
  · rw [if_pos h] at hk
    injection hk with h2
    subst h2
    exact he
  · rw [if_neg h] at hk
    exact sweep_le s now k r hk

theorem stepOutcome_le (m R n : Nat) (h : n ≤ m) :
    stepOutcome m R n = Outcome.admitted m ((m : Int) - (n : Int)) R := by
  unfold stepOutcome
  rw [if_pos h]
  congr 1
  rw [max_eq_right]
  omega

theorem redisRead_admit_le (rs : RedisState) (key : String) (w m now : Nat)
    (nc rt : Nat) (rem : Int)
    (h : redisRead rs key w m now = RedisPlan.admitWrite nc rt rem) : nc ≤ m := by
  simp only [redisRead] at h
  split at h
  · exact absurd h (by simp)
  · split at h
    · exact absurd h (by simp)
    · injection h with h3 h4 h5
      omega

/-! Claim theorems. -/

/-- C1: for every key and every window, with configured limit max
(positive, as every reachable configuration has), the requests whose
post-increment count is at most max are admitted and the request that
first makes the count exceed max is rejected: in a run of requests that
starts a fresh window, request i (counting from 0) is admitted exactly
when i + 1 is at most max, so there are exactly max admissions per
window and the (max+1)-th request for the same key in the same window
is the first rejection. The first conjunct settles the local path, the
second the sequential Redis path started on a fresh key, where no time
hypotheses are needed because the stored counter is only ever reset by
the unreachable expired branch. -/
theorem c1_inclusive_boundary :
    (∀ (s : Store) (key : String) (w m t1 : Nat) (ts : List Nat),
        1 ≤ m →
        (∀ r, s key = some r → r.resetTime < t1) →
        (∀ t ∈ ts, t ≤ t1 + w) →
        ((runLocal s key w m (t1 :: ts)).2).map Outcome.isAdmitted =
          (List.range (ts.length + 1)).map (fun i => decide (i + 1 ≤ m)))
    ∧ (∀ (key : String) (w m : Nat) (ts : List Nat),
        ((runRedis emptyRedis key w m ts).2).map Outcome.isAdmitted =
          (List.range ts.length).map (fun i => decide (i + 1 ≤ m))) := by
  constructor
  · intro s key w m t1 ts hm hfresh hts
    rw [(runLocal_fresh s key w m t1 ts hfresh hts).1, List.map_cons, List.map_map,
      List.range_succ_eq_map, List.map_cons, List.map_map]
    have hhead : Outcome.isAdmitted (Outcome.admitted m ((m : Int) - 1) (t1 + w)) =
        decide (0 + 1 ≤ m) := by
      simp only [Outcome.isAdmitted]
      exact (decide_eq_true (by omega)).symm
    rw [hhead]
    have hfun : (Outcome.isAdmitted ∘ fun j => stepOutcome m (t1 + w) (j + 2)) =
        ((fun i => decide (i + 1 ≤ m)) ∘ Nat.succ) := by
      funext j
      simp only [Function.comp_apply]
      rw [isAdmitted_stepOutcome, decide_eq_decide]
    rw [hfun]
  · intro key w m ts
    have h0 : emptyRedis key = redisCountAfter m 0 := by
      simp [emptyRedis, redisCountAfter]
    have h1 : emptyRedis (resetKeyOf key) = none := rfl
    rw [(runRedis_inv key w m ts emptyRedis 0 h0 h1).1]
    have hfun : (fun k => decide (0 + k + 1 ≤ m)) =
        (fun i => decide (i + 1 ≤ m)) := by
      funext k
      rw [decide_eq_decide]
      omega
    rw [hfun]

/-- Witness for C1 at a concrete input: limit 2, a fresh window with
three requests; the third is the first rejection on both paths. -/
theorem c1_witness :
    (((runLocal emptyStore "k" 60 2 (0 :: [1, 2])).2).map Outcome.isAdmitted =
        (List.range ([1, 2].length + 1)).map (fun i => decide (i + 1 ≤ 2)))
    ∧ (((runRedis emptyRedis "k" 60 2 [0, 1, 2]).2).map Outcome.isAdmitted =
        (List.range [0, 1, 2].length).map (fun i => decide (i + 1 ≤ 2))) :=
  ⟨c1_inclusive_boundary.1 emptyStore "k" 60 2 0 [1, 2] (by decide)
      (by intro r hr; simp [emptyStore] at hr) (by decide),
    c1_inclusive_boundary.2 "k" 60 2 [0, 1, 2]⟩

/-- C2 is refuted on the shared path: the code never writes the reset
key (the only write sits in the expired branch, which is unreachable
because the stored reset instant is always absent), so after the reset
instant reported to the client has passed, the next request does not
start a fresh window. Concretely, with windowMs 60000 and max 2, the
first request at t = 0 is admitted and reports reset instant 60000; the
request at t = 61000 is then admitted with remaining 0 instead of
max - 1 = 1, the stored counter keeps its old value incremented, and no
reset instant is ever stored. -/
theorem c2_redis_window_never_resets :
    (redisStep emptyRedis "k1" 60000 2 0).2 = Outcome.admitted 2 1 60000 ∧
      (redisStep (redisStep emptyRedis "k1" 60000 2 0).1 "k1" 60000 2 61000).2 =
        Outcome.admitted 2 0 121000 ∧
      (redisStep (redisStep emptyRedis "k1" 60000 2 0).1 "k1" 60000 2 61000).1
          (resetKeyOf "k1") = none := by
  constructor
  · rfl
  · constructor
    · rfl
    · rfl

/-- C3 is refuted on the shared path: the Redis branch is a non-atomic
read-then-write, so under the interleaving in which both concurrent
requests pass their reads before either write lands, with max 1 both
requests are admitted (two admissions where the claim allows exactly
one) and the final stored count is 1, a lost increment. -/
theorem c3_lost_update :
    (twoInterleaved emptyRedis "k" 60000 1 0 0).2.1 = Outcome.admitted 1 0 60000 ∧
      (twoInterleaved emptyRedis "k" 60000 1 0 0).2.2 = Outcome.admitted 1 0 60000 ∧
      (twoInterleaved emptyRedis "k" 60000 1 0 0).1 "k" = some 1 := by
  refine ⟨rfl, rfl, ?_⟩
  simp [twoInterleaved, redisRead, redisApply, redisSet, emptyRedis, resetKeyOf]

/-- C4 as stated is refuted at the boundary now = expiry: the claim
makes the expiry inclusive (now ≥ resetTime kills the record), but the
sweep and the reset branch both test now > resetTime strictly. With an
entry of count 1 and reset instant 100, a request arriving exactly at
now = 100 still observes the old record: the count is incremented to 2
instead of a fresh record with count 1. -/
theorem c4_counterexample :
    (inMemoryRateLimit (mapSet emptyStore "k" ⟨1, 100⟩) "k" 60000 5 100).1 "k" =
        some ⟨2, 100⟩ ∧
      (inMemoryRateLimit (mapSet emptyStore "k" ⟨1, 100⟩) "k" 60000 5 100).2 =
        Outcome.admitted 5 3 100 := by
  constructor
  · rfl
  · rfl

/-- C4 amended: the expiry instant of a record is its stored resetTime
(windowStart + windowLength, as the record is always created with
resetTime = now + windowMs), and the record stops influencing admission
decisions only once now lies strictly after it: whenever the stored
entry satisfies resetTime < now, the next request for that key observes
a fresh record with count 1 and reset instant now + windowMs and is
admitted with remaining max - 1. At now = resetTime exactly the record
is still live (see the counterexample). -/
theorem c4_strict_boundary :
    ∀ (s : Store) (key : String) (w m now : Nat) (r : Entry),
      s key = some r → r.resetTime < now →
      (inMemoryRateLimit s key w m now).1 key = some ⟨1, now + w⟩ ∧
        (inMemoryRateLimit s key w m now).2 =
          Outcome.admitted m ((m : Int) - 1) (now + w) := by
  intro s key w m now r hs hlt
  have hsw : sweep s now key = none := by
    apply sweep_expired
    intro r2 h2
    rw [hs] at h2
    injection h2 with h3
    subst h3
    exact hlt
  rw [inMemory_absent s key w m now hsw]
  exact ⟨mapSet_self _ _ _, rfl⟩

/-- Witness for C4 amended: an entry with reset instant 100 and a
request at 101 yields a fresh record and a full window. -/
theorem c4_witness :
    (inMemoryRateLimit (mapSet emptyStore "k" ⟨7, 100⟩) "k" 60 5 101).1 "k" =
        some ⟨1, 101 + 60⟩ ∧
      (inMemoryRateLimit (mapSet emptyStore "k" ⟨7, 100⟩) "k" 60 5 101).2 =
        Outcome.admitted 5 ((5 : Int) - 1) (101 + 60) :=
  c4_strict_boundary (mapSet emptyStore "k" ⟨7, 100⟩) "k" 60 5 101 ⟨7, 100⟩
    (mapSet_self _ _ _) (by decide)

/-- C5: for every sequence of N = ts.length + 1 requests for a single
key within one fresh window, with N at most max, every request is
admitted and the reported remaining values are max - 1, max - 2, ...,
max - N in order. -/
theorem c5_remaining_monotone :
    ∀ (s : Store) (key : String) (w m t1 : Nat) (ts : List Nat),
      (∀ r, s key = some r → r.resetTime < t1) →
      (∀ t ∈ ts, t ≤ t1 + w) →
      ts.length + 1 ≤ m →
      (runLocal s key w m (t1 :: ts)).2 =
        (List.range (ts.length + 1)).map
          (fun (i : Nat) => Outcome.admitted m ((m : Int) - ((i : Int) + 1)) (t1 + w)) := by
  intro s key w m t1 ts hfresh hts hN
  rw [(runLocal_fresh s key w m t1 ts hfresh hts).1]
  simp only [List.range_succ_eq_map, List.map_cons, List.map_map]
  have htail : (List.range ts.length).map (fun j => stepOutcome m (t1 + w) (j + 2)) =
      (List.range ts.length).map
        ((fun (i : Nat) => Outcome.admitted m ((m : Int) - ((i : Int) + 1)) (t1 + w)) ∘
          Nat.succ) := by
    apply List.map_congr_left
    intro j hj
    have hj2 : j < ts.length := List.mem_range.mp hj
    rw [stepOutcome_le m (t1 + w) (j + 2) (by omega), Function.comp_apply]
    congr 1
  rw [htail]
  simp only [Nat.cast_zero, zero_add]

/-- Witness for C5: three requests against limit 3 in one window report
remaining 2, 1, 0. -/
theorem c5_witness :
    (runLocal emptyStore "k" 60 3 (0 :: [1, 2])).2 =
      (List.range ([1, 2].length + 1)).map
        (fun (i : Nat) => Outcome.admitted 3 ((3 : Int) - ((i : Int) + 1)) (0 + 60)) :=
  c5_remaining_monotone emptyStore "k" 60 3 0 [1, 2]
    (by intro r hr; simp [emptyStore] at hr) (by decide) (by decide)

/-- C6: when every call to the shared backend fails, a limiter
configured to use Redis with fallback makes, for every request, the
same admit/reject decision with the same remaining and reset values as
the purely local limiter, threading the same local store; the Redis
database is untouched, and because the availability is a per-call input
(the source re-enters the try block on every request) each subsequent
request re-attempts the shared store. -/
theorem c6_fallback_equiv :
    ∀ (st : SysState) (key : String) (w m : Nat)
      (calls : List (RedisAvail × Nat)),
      (∀ a ∈ calls, a.1 = RedisAvail.failing) →
      (runCalls st key w m calls).2 =
          (runLocal st.mem key w m (calls.map Prod.snd)).2 ∧
        (runCalls st key w m calls).1.redis = st.redis ∧
        (runCalls st key w m calls).1.mem =
          (runLocal st.mem key w m (calls.map Prod.snd)).1 := by
  intro st key w m calls
  induction calls generalizing st with
  | nil => intro _; exact ⟨rfl, rfl, rfl⟩
  | cons cHead cs ih =>
      intro hall
      have h1 : cHead.1 = RedisAvail.failing := hall cHead (List.mem_cons_self _ _)
      have ih2 := ih ⟨st.redis, (inMemoryRateLimit st.mem key w m cHead.2).1⟩
        (fun a ha => hall a (List.mem_cons_of_mem _ ha))
      refine ⟨?_, ?_, ?_⟩
      · show (rateLimitCall cHead.1 st key w m cHead.2).2 ::
            (runCalls (rateLimitCall cHead.1 st key w m cHead.2).1 key w m cs).2 = _
        rw [h1]
        exact congrArg _ ih2.1
      · show (runCalls (rateLimitCall cHead.1 st key w m cHead.2).1 key w m cs).1.redis =
            st.redis
        rw [h1]
        exact ih2.2.1
      · show (runCalls (rateLimitCall cHead.1 st key w m cHead.2).1 key w m cs).1.mem = _
        rw [h1]
        exact ih2.2.2

/-- Witness for C6: two failing-backend calls produce exactly the local
run and leave the Redis database untouched. -/
theorem c6_witness :
    (runCalls ⟨emptyRedis, emptyStore⟩ "k" 60 2
          [(RedisAvail.failing, 0), (RedisAvail.failing, 10)]).2 =
        (runLocal emptyStore "k" 60 2
          ([((RedisAvail.failing : RedisAvail), (0 : Nat)),
            (RedisAvail.failing, 10)].map Prod.snd)).2 ∧
      (runCalls ⟨emptyRedis, emptyStore⟩ "k" 60 2
          [(RedisAvail.failing, 0), (RedisAvail.failing, 10)]).1.redis = emptyRedis ∧
      (runCalls ⟨emptyRedis, emptyStore⟩ "k" 60 2
          [(RedisAvail.failing, 0), (RedisAvail.failing, 10)]).1.mem =
        (runLocal emptyStore "k" 60 2
          ([((RedisAvail.failing : RedisAvail), (0 : Nat)),
            (RedisAvail.failing, 10)].map Prod.snd)).1 :=
  c6_fallback_equiv ⟨emptyRedis, emptyStore⟩ "k" 60 2
    [(RedisAvail.failing, 0), (RedisAvail.failing, 10)] (by decide)

/-- C7: on every admitted request, with a positive configured max, the
three headers set before control passes downstream carry the configured
max as X-RateLimit-Limit, a non-negative X-RateLimit-Remaining, and as
X-RateLimit-Reset the reset instant of the window: on the local path
the reset instant of the entry stored for the key, on the Redis path
(whose reachable states never hold a stored reset instant) the treated
window expiry now + windowMs. That the headers are set before next()
runs is structural: the admitted outcome carries them. -/
theorem c7_headers :
    (∀ (s : Store) (key : String) (w m now lim : Nat) (rem : Int) (rst : Nat),
        1 ≤ m →
        (inMemoryRateLimit s key w m now).2 = Outcome.admitted lim rem rst →
        lim = m ∧ 0 ≤ rem ∧
          ∃ r, (inMemoryRateLimit s key w m now).1 key = some r ∧
            r.resetTime = rst)
    ∧ (∀ (rs : RedisState) (key : String) (w m now lim : Nat) (rem : Int)
        (rst : Nat),
        1 ≤ m →
        rs (resetKeyOf key) = none →
        (redisStep rs key w m now).2 = Outcome.admitted lim rem rst →
        lim = m ∧ 0 ≤ rem ∧ rst = now + w) := by
  constructor
  · intro s key w m now lim rem rst hm h
    cases hsw : sweep s now key with
    | none =>
        rw [inMemory_absent s key w m now hsw] at h
        injection h with h1 h2 h3
        subst h1
        subst h2
        subst h3
        refine ⟨rfl, by omega, ⟨1, now + w⟩, ?_, rfl⟩
        rw [inMemory_absent s key w m now hsw]
        exact mapSet_self _ _ _
    | some d =>
        have hle := sweep_le s now key d hsw
        rw [inMemory_live s key w m now d hsw hle] at h
        unfold stepOutcome at h
        by_cases hc : d.count + 1 ≤ m
        · rw [if_pos hc] at h
          injection h with h1 h2 h3
          subst h1
          subst h2
          subst h3
          refine ⟨rfl, le_max_left 0 _, ⟨d.count + 1, d.resetTime⟩, ?_, rfl⟩
          rw [inMemory_live s key w m now d hsw hle]
          exact mapSet_self _ _ _
        · rw [if_neg hc] at h
          exact absurd h (by simp)
  · intro rs key w m now lim rem rst hm hr h
    have h2 : planOutcome m (redisRead rs key w m now) = Outcome.admitted lim rem rst := h
    rw [redisRead_noReset rs key w m now hr] at h2
    by_cases hc : (rs key).getD 0 + 1 > m
    · rw [if_pos hc] at h2
      exact absurd h2 (by simp [planOutcome])
    · rw [if_neg hc] at h2
      simp only [planOutcome] at h2
      injection h2 with h1 h3 h4
      subst h1
      subst h3
      subst h4
      exact ⟨rfl, le_max_left 0 _, rfl⟩

/-- Witness for C7 at a concrete admitted request on each path. -/
theorem c7_witness :
    ((5 : Nat) = 5 ∧ (0 : Int) ≤ 4 ∧
        ∃ r, (inMemoryRateLimit emptyStore "k" 60 5 0).1 "k" = some r ∧
          r.resetTime = 60)
    ∧ ((5 : Nat) = 5 ∧ (0 : Int) ≤ max 0 ((5 : Int) - ((1 : Nat) : Int)) ∧
        (0 + 60 : Nat) = 0 + 60) :=
  ⟨c7_headers.1 emptyStore "k" 60 5 0 5 4 60 (by decide) (by decide),
    c7_headers.2 emptyRedis "k" 60 5 0 5 (max 0 ((5 : Int) - ((1 : Nat) : Int)))
      (0 + 60) (by decide) rfl rfl⟩

/-- C8 as stated is refuted: when the configured key generator returns
the empty key, the limiter does not substitute a sentinel key for the
admission decision; the empty key is used verbatim. Starting from an
empty store, the counter is created under the empty key, no entry
appears under the sentinel key that the default generator would have
produced, and the request is still processed (admitted with a normal
decision). -/
theorem c8_counterexample :
    (rateLimitLocal (fun _ => "") none emptyStore 60000 5 0).1 "" =
        some ⟨1, 60000⟩ ∧
      (rateLimitLocal (fun _ => "") none emptyStore 60000 5 0).1
          "rate-limit:unknown" = none ∧
      (rateLimitLocal (fun _ => "") none emptyStore 60000 5 0).2 =
        Outcome.admitted 5 4 60000 := by
  refine ⟨rfl, rfl, ?_⟩
  rfl

/-- C8 amended: the sentinel substitution lives only inside the default
key generator, which maps an absent or empty forwarded-address header
to the fixed key rate-limit:unknown; the middleware itself uses the
string returned by the configured key generator verbatim (even when it
is empty), and such a request is still processed through the normal
admission decision, never surfaced as a request-level error. -/
theorem c8_key_used_verbatim :
    defaultKeyGenerator none = "rate-limit:unknown" ∧
      defaultKeyGenerator (some "") = "rate-limit:unknown" ∧
      ∀ (kg : Option String → String) (hdr : Option String) (s : Store)
        (w m now : Nat),
        rateLimitLocal kg hdr s w m now = inMemoryRateLimit s (kg hdr) w m now :=
  ⟨rfl, rfl, fun _ _ _ _ _ _ => rfl⟩

/-- C9: after every call of the local in-memory function, no entry of
the store (under any key, not only the one decided) has a reset instant
strictly before the clock reading of the call: the sweep deletes every
expired entry before the decision, and the call only writes entries
that are live at that instant. -/
theorem c9_sweep_invariant :
    ∀ (s : Store) (key : String) (w m now : Nat) (k : String) (r : Entry),
      (inMemoryRateLimit s key w m now).1 k = some r → now ≤ r.resetTime := by
  intro s key w m now k r h
  cases hsw : sweep s now key with
  | none =>
      rw [inMemory_absent s key w m now hsw] at h
      exact mapSet_after_sweep_le s now key k ⟨1, now + w⟩ r h (Nat.le_add_right now w)
  | some d =>
      have hle := sweep_le s now key d hsw
      rw [inMemory_live s key w m now d hsw hle] at h
      exact mapSet_after_sweep_le s now key k ⟨d.count + 1, d.resetTime⟩ r h hle

/-- Witness for C9 at a concrete call. -/
theorem c9_witness : (0 : Nat) ≤ (Entry.mk 1 60).resetTime :=
  c9_sweep_invariant emptyStore "k" 60 5 0 "k" (Entry.mk 1 60) (by decide)

/-- C10: in the shared-path branch, a rejected request leaves the whole
Redis database unchanged (the incremented count is only written back on
admission), and one step preserves the per-key bound: with a positive
max, if every stored count under the key is at most max before the
call, the same holds after it, so along every reachable sequence of
calls the stored counter never exceeds max. -/
theorem c10_reject_frame :
    ∀ (rs : RedisState) (key : String) (w m now : Nat),
      ((redisStep rs key w m now).2 = Outcome.rejected →
        (redisStep rs key w m now).1 = rs) ∧
      (1 ≤ m → (∀ c, rs key = some c → c ≤ m) →
        ∀ c, (redisStep rs key w m now).1 key = some c → c ≤ m) := by
  intro rs key w m now
  constructor
  · intro h
    have h2 : planOutcome m (redisRead rs key w m now) = Outcome.rejected := h
    show redisApply rs key (redisRead rs key w m now) = rs
    cases hp : redisRead rs key w m now with
    | resetWindow nr stale =>
        rw [hp] at h2
        exact absurd h2 (by simp [planOutcome])
    | admitWrite nc rt rem =>
        rw [hp] at h2
        exact absurd h2 (by simp [planOutcome])
    | rejectNoWrite nc =>
        rfl
  · intro hm hinv c hc
    have hc2 : redisApply rs key (redisRead rs key w m now) key = some c := hc
    cases hp : redisRead rs key w m now with
    | resetWindow nr stale =>
        rw [hp] at hc2
        have hc3 : redisSet (redisSet rs key 1) (resetKeyOf key) nr key = some c := hc2
        rw [redisSet_other _ _ _ _ (Ne.symm (resetKeyOf_ne key)), redisSet_self] at hc3
        injection hc3 with h4
        omega
    | admitWrite nc rt rem =>
        rw [hp] at hc2
        have hc3 : redisSet rs key nc key = some c := hc2
        rw [redisSet_self] at hc3
        injection hc3 with h4
        subst h4
        exact redisRead_admit_le rs key w m now nc rt rem hp
    | rejectNoWrite nc =>
        rw [hp] at hc2
        exact hinv c hc2

/-- Witness for C10: with max 1 and a stored count already at the
limit, the call is rejected and the database is returned unchanged,
and the preserved bound instantiates at the stored count. -/
theorem c10_witness :
    (redisStep (redisSet emptyRedis "k" 1) "k" 10 1 0).1 =
        redisSet emptyRedis "k" 1 ∧
      (1 : Nat) ≤ 1 := by
  refine ⟨(c10_reject_frame (redisSet emptyRedis "k" 1) "k" 10 1 0).1 (by decide),
    (c10_reject_frame (redisSet emptyRedis "k" 1) "k" 10 1 0).2 (by decide)
      ?_ 1 (by decide)⟩
  intro c hc
  have h2 : (1 : Nat) = c := Option.some.inj hc
  omega
